import Mathlib

/-!
Verification of the randomsanity server core: the statistical sanity-test
battery (randomsanitystat.go) and the uniqueness / deduplication store
(looksUnique / unique / write / i64 / dealWithMultiError).

Bytes are modelled as natural numbers (< 256 in every theorem that needs it),
byte buffers as lists, uint64 arithmetic with explicit reduction mod 2^64,
the datastore as a function from integer keys to optional buckets, and
backend failures as error injections carried by an environment record.
-/

set_option maxRecDepth 20000

namespace RandomSanity

/-! ## Statistical tests (randomsanitystat.go) -/

/-- Decoder for width 1: the single byte itself. -/
def byteDecode1 (b : List Nat) : Nat := b.getD 0 0

/-- binary.LittleEndian.Uint16. -/
def uint16LE (b : List Nat) : Nat := b.getD 0 0 + 2 ^ 8 * b.getD 1 0

/-- binary.BigEndian.Uint16. -/
def uint16BE (b : List Nat) : Nat := b.getD 1 0 + 2 ^ 8 * b.getD 0 0

/-- binary.LittleEndian.Uint32. -/
def uint32LE (b : List Nat) : Nat :=
  b.getD 0 0 + 2 ^ 8 * b.getD 1 0 + 2 ^ 16 * b.getD 2 0 + 2 ^ 24 * b.getD 3 0

/-- binary.BigEndian.Uint32. -/
def uint32BE (b : List Nat) : Nat :=
  b.getD 3 0 + 2 ^ 8 * b.getD 2 0 + 2 ^ 16 * b.getD 1 0 + 2 ^ 24 * b.getD 0 0

/-- binary.LittleEndian.Uint64. -/
def uint64LE (b : List Nat) : Nat :=
  b.getD 0 0 + 2 ^ 8 * b.getD 1 0 + 2 ^ 16 * b.getD 2 0 + 2 ^ 24 * b.getD 3 0 +
  2 ^ 32 * b.getD 4 0 + 2 ^ 40 * b.getD 5 0 + 2 ^ 48 * b.getD 6 0 + 2 ^ 56 * b.getD 7 0

/-- binary.BigEndian.Uint64. -/
def uint64BE (b : List Nat) : Nat :=
  b.getD 7 0 + 2 ^ 8 * b.getD 6 0 + 2 ^ 16 * b.getD 5 0 + 2 ^ 24 * b.getD 4 0 +
  2 ^ 32 * b.getD 3 0 + 2 ^ 40 * b.getD 2 0 + 2 ^ 48 * b.getD 1 0 + 2 ^ 56 * b.getD 0 0

/-- `incrementing` from randomsanitystat.go: needs at least `bytesPerNum + 8`
bytes, decodes the first group as the seed, and demands that group `i` decode
to `seed + i` in wrapping uint64 arithmetic, for every complete group.
The Go loop with its `allmatch` early-abort flag is equivalent to the bounded
universal expressed with `List.all` over the group indices. -/
def incrementing (b : List Nat) (bytesPerNum : Nat) (fp : List Nat → Nat) : Bool :=
  if b.length < bytesPerNum + 8 then false
  else
    let first := fp (List.take bytesPerNum b)
    let nNums := b.length / bytesPerNum
    (List.range nNums).all fun i =>
      i == 0 || (first + i) % 2 ^ 64 == fp (List.take bytesPerNum (List.drop (bytesPerNum * i) b))

/-- `Counting` from randomsanitystat.go: the seven width/endianness
combinations tried in source order. -/
def Counting (b : List Nat) : Bool :=
  if incrementing b 1 byteDecode1 then true
  else if incrementing b 2 uint16LE then true
  else if incrementing b 2 uint16BE then true
  else if incrementing b 4 uint32LE then true
  else if incrementing b 4 uint32BE then true
  else if incrementing b 8 uint64LE then true
  else if incrementing b 8 uint64BE then true
  else false

/-- The decoder table of `Counting`: width paired with decode function,
in the order the source tries them. -/
def countingCombos : List (Nat × (List Nat → Nat)) :=
  [(1, byteDecode1), (2, uint16LE), (2, uint16BE),
   (4, uint32LE), (4, uint32BE), (8, uint64LE), (8, uint64BE)]

/-- Loop of `Repeated`: index `i` scans the circular adjacent pairs
`(b[i-1], b[i mod len])` for `i = 1 .. len`; `nRep` counts the current run of
equal pairs and the function returns true as soon as it reaches 8.
`rem` is the number of loop iterations still to run (structural fuel
standing for the Go loop bound `i <= nBytes`). -/
def repAux (b : List Nat) : Nat → Nat → Nat → Bool
  | _, _, 0 => false
  | i, nRep, rem + 1 =>
    if b.getD (i - 1) 0 = b.getD (i % b.length) 0 then
      if 8 ≤ nRep + 1 then true else repAux b (i + 1) (nRep + 1) rem
    else repAux b (i + 1) 0 rem

/-- `Repeated` from randomsanitystat.go. -/
def Repeated (b : List Nat) : Bool := repAux b 1 0 b.length

/-- `BitStuck` from randomsanitystat.go: for buffers of 64 bytes or more,
OR and AND all bytes together and flag the buffer when some bit is never
set (`allOr` misses it) or always set (`allAnd` keeps it). -/
def BitStuck (b : List Nat) : Bool :=
  if b.length < 64 then false
  else if b.foldl (fun acc v => acc ||| v) 0 != 255 ||
          b.foldl (fun acc v => acc &&& v) 255 != 0 then true
  else false

/-- `DecimalHex` from randomsanitystat.go: 45 bytes or more, every nibble
of every byte in the decimal range 0-9. -/
def DecimalHex (b : List Nat) : Bool :=
  if b.length < 45 then false
  else b.all fun x => decide ((x >>> 4) < 10) && decide ((x &&& 15) < 10)

/-- `LooksRandom` from randomsanitystat.go: the composite battery, first
failing sub-test wins, with its reason string. -/
def LooksRandom (b : List Nat) : Bool × String :=
  if Repeated b then (false, "Repeated bytes")
  else if Counting b then (false, "Counting")
  else if DecimalHex b then (false, "Decimal digits as hex")
  else if BitStuck b then (false, "Bit stuck")
  else (true, "")

/-! ## Uniqueness store (unique / write / i64 / dealWithMultiError) -/

/-- Number of leading ciphertext bytes used as the bucket key (production
value from the source). -/
def prefixBytes : Nat := 4

/-- `maxEntriesPerKey` from `write`. -/
def maxEntriesPerKey : Nat := 100

/-- One stored fingerprint: `RngUniqueBytesEntry`. -/
structure RngUniqueBytesEntry where
  trailing : List Nat
  time : Int
  userID : String
  tag : String
deriving DecidableEq, Repr

/-- One bucket: `RngUniqueBytes`, the oldest-first list of entries. -/
structure RngUniqueBytes where
  hits : List RngUniqueBytesEntry
deriving DecidableEq, Repr

/-- Errors the store operations can surface.  `noEnt` is
`datastore.ErrNoSuchEntity`; `other` is any other backend error (carried as a
code); the two `Fail` constructors stand for the secret-key and
cipher-initialization failures of `unique`. -/
inductive Err where
  | noEnt : Err
  | other : Nat → Err
  | secretFail : Nat → Err
  | cipherFail : Nat → Err
deriving DecidableEq, Repr

/-- The persistent "RB" datastore: integer key to optional bucket. -/
def Store : Type := Int → Option RngUniqueBytes

/-- Call environment: the keyed block cipher obtained from the secret (a
deterministic function on 16-byte chunks), and injected backend failures —
`secretErr`/`cipherErr` make the secret fetch or `aes.NewCipher` fail, and
`fetchErr`/`putErr` make the datastore read or write of a given key fail. -/
structure Env where
  enc : List Nat → List Nat
  secretErr : Option Nat := none
  cipherErr : Option Nat := none
  fetchErr : Int → Option Nat := fun _ => none
  putErr : Int → Option Nat := fun _ => none

/-- Go `int64` reinterpretation of an unsigned value. -/
def toInt64 (v : Nat) : Int :=
  if v % 2 ^ 64 < 2 ^ 63 then ((v % 2 ^ 64 : Nat) : Int)
  else ((v % 2 ^ 64 : Nat) : Int) - 2 ^ 64

/-- `i64` from the store source: OR together up to the first 8 bytes,
little-endian, into an int64. -/
def i64 (b : List Nat) : Int :=
  toInt64 ((List.range (min b.length 8)).foldl (fun acc i => acc ||| (b.getD i 0 <<< (8 * i))) 0)

/-- The error shapes `dealWithMultiError` distinguishes: a plain error or an
`appengine.MultiError`, an array of per-key optional errors. -/
inductive DSErr where
  | single : Err → DSErr
  | multi : List (Option Err) → DSErr
deriving DecidableEq

/-- `dealWithMultiError` from the store source: nil stays nil; a MultiError
is fine when every slot is nil or ErrNoSuchEntity and otherwise yields its
first other error; a plain error passes through. -/
def dealWithMultiError : Option DSErr → Option Err
  | none => none
  | some (DSErr.multi m) =>
      m.findSome? fun e =>
        match e with
        | none => none
        | some Err.noEnt => none
        | some x => some x
  | some (DSErr.single e) => some e

/-- Per-key error column of `datastore.GetMulti`: an injected backend failure
wins, a missing entity is ErrNoSuchEntity, a present bucket is error-free. -/
def getMultiErrs (env : Env) (st : Store) (keys : List Int) : List (Option Err) :=
  keys.map fun k =>
    match env.fetchErr k with
    | some e => some (Err.other e)
    | none => match st k with
      | none => some Err.noEnt
      | some _ => none

/-- Per-key value column of `datastore.GetMulti`: the bucket when the fetch
succeeded, the zero value otherwise. -/
def getMultiVals (env : Env) (st : Store) (keys : List Int) : List RngUniqueBytes :=
  keys.map fun k =>
    match env.fetchErr k, st k with
    | none, some v => v
    | _, _ => ⟨[]⟩

/-- `datastore.GetMulti`: values plus a MultiError when any slot failed. -/
def getMulti (env : Env) (st : Store) (keys : List Int) :
    List RngUniqueBytes × Option DSErr :=
  (getMultiVals env st keys,
   if (getMultiErrs env st keys).all (· = none) then none
   else some (DSErr.multi (getMultiErrs env st keys)))

/-- Body of the `write` transaction on one bucket: drop any entry with the
same trailing bytes, append the fresh entry, and evict the oldest half when
the bucket overflows `maxEntriesPerKey`. -/
def bucketUpdate (hits : List RngUniqueBytesEntry) (b : List Nat) (t : Int)
    (uID tag : String) : List RngUniqueBytesEntry :=
  let kept := hits.filter fun h => h.trailing != List.drop prefixBytes b
  let newHits := kept ++ [⟨List.drop prefixBytes b, t, uID, tag⟩]
  if newHits.length > maxEntriesPerKey then newHits.drop (newHits.length / 2)
  else newHits

/-- `write` from the store source: the transactional read-modify-write of the
bucket keyed by `1 + i64(first prefixBytes bytes)`.  A fetch error other than
ErrNoSuchEntity, or a put error, fails the transaction and leaves the store
unchanged. -/
def write (env : Env) (st : Store) (b : List Nat) (t : Int) (uID tag : String) :
    Option Err × Store :=
  let key : Int := 1 + i64 (List.take prefixBytes b)
  match env.fetchErr key with
  | some e => (some (Err.other e), st)
  | none =>
    let hit : RngUniqueBytes := (st key).getD ⟨[]⟩
    let newHits := bucketUpdate hit.hits b t uID tag
    match env.putErr key with
    | some e => (some (Err.other e), st)
    | none => (none, fun k => if k = key then some ⟨newHits⟩ else st k)

/-- The encrypted 16-byte windows of a submission, stride 1:
`chunks[i] = Encrypt(b[i:i+16])` for `i < len(b) - 15`. -/
def uchunks (env : Env) (b : List Nat) : List (List Nat) :=
  (List.range (b.length - 15)).map fun i => env.enc (List.take 16 (List.drop i b))

/-- The bucket keys of the windows, as built in `unique`:
`1 + i64(chunk[0:prefixBytes])`. -/
def ukeys (env : Env) (b : List Nat) : List Int :=
  (uchunks env b).map fun c => 1 + i64 (List.take prefixBytes c)

/-- Match scan of `unique`: walk the fetched buckets in window order and
return the first stored entry whose trailing bytes equal the trailing part of
that window's chunk, together with the window index. -/
def findMatch (chunks : List (List Nat)) (vals : List RngUniqueBytes) (i : Nat) :
    Option (RngUniqueBytesEntry × Nat) :=
  match chunks, vals with
  | c :: cs, v :: vs =>
    match v.hits.find? (fun h => h.trailing == List.drop prefixBytes c) with
    | some h => some (h, i)
    | none => findMatch cs vs (i + 1)
  | _, _ => none

/-- `unique` from the store source.  Returns (matched entry, window index,
error) and the updated store.  Secret/cipher failures abort first; then the
batched fetch, normalized through `dealWithMultiError`; a found match
triggers the refresh `write` whose error the source discards; otherwise the
first and (when more than one window exists) last chunks are written, any
write error aborting. -/
def unique (env : Env) (st : Store) (b : List Nat) (uID tag : String) (t : Int) :
    (Option RngUniqueBytesEntry × Nat × Option Err) × Store :=
  match env.secretErr with
  | some e => ((none, 0, some (Err.secretFail e)), st)
  | none =>
  match env.cipherErr with
  | some e => ((none, 0, some (Err.cipherFail e)), st)
  | none =>
  match dealWithMultiError (getMulti env st (ukeys env b)).2 with
  | some e => ((none, 0, some e), st)
  | none =>
  match findMatch (uchunks env b) (getMultiVals env st (ukeys env b)) 0 with
  | some (h, i) =>
    ((some h, i, none), (write env st ((uchunks env b).getD i []) t "" "").2)
  | none =>
    match write env st ((uchunks env b).getD 0 []) t uID tag with
    | (some e, st1) => ((none, 0, some e), st1)
    | (none, st1) =>
      if 1 < b.length - 15 then
        match write env st1 ((uchunks env b).getD (b.length - 16) []) t uID tag with
        | (some e, st2) => ((none, 0, some e), st2)
        | (none, st2) => ((none, 0, none), st2)
      else ((none, 0, none), st1)

/-! ## Lemmas about Repeated -/

/-- Scan position `p` of the `Repeated` loop compares an equal circular
adjacent pair. -/
def pairEq (b : List Nat) (p : Nat) : Prop :=
  b.getD (p - 1) 0 = b.getD (p % b.length) 0

lemma repAux_eq_false (b : List Nat) :
    ∀ rem i r, r + rem < 8 → repAux b i r rem = false := by
  intro rem
  induction rem with
  | zero => intro i r _; rfl
  | succ rem ih =>
    intro i r h
    simp only [repAux]
    split
    · split
      · next h8 => exact absurd h8 (by omega)
      · exact ih (i + 1) (r + 1) (by omega)
    · exact ih (i + 1) 0 (by omega)

lemma repAux_eq_true_of_run (b : List Nat) :
    ∀ k i r rem, 1 ≤ k → k ≤ rem → 8 ≤ r + k →
      (∀ t, t < k → pairEq b (i + t)) → repAux b i r rem = true := by
  intro k
  induction k with
  | zero => intro i r rem h1; omega
  | succ k ih =>
    intro i r rem _ hrem h8 hp
    obtain ⟨rem', rfl⟩ : ∃ rem', rem = rem' + 1 := ⟨rem - 1, by omega⟩
    have hp0 : b.getD (i - 1) 0 = b.getD (i % b.length) 0 := by
      have := hp 0 (by omega)
      simpa [pairEq] using this
    simp only [repAux]
    rw [if_pos hp0]
    by_cases h81 : 8 ≤ r + 1
    · rw [if_pos h81]
    · rw [if_neg h81]
      refine ih (i + 1) (r + 1) rem' (by omega) (by omega) (by omega) ?_
      intro t ht
      have : i + 1 + t = i + (t + 1) := by omega
      rw [this]
      exact hp (t + 1) (by omega)

lemma repAux_eq_true_of_future_run (b : List Nat) :
    ∀ rem i r p, i ≤ p → p + 8 ≤ i + rem →
      (∀ t, t < 8 → pairEq b (p + t)) → repAux b i r rem = true := by
  intro rem
  induction rem with
  | zero => intro i r p h1 h2 _; omega
  | succ rem ih =>
    intro i r p hip hbound hp
    by_cases heq : i = p
    · subst heq
      exact repAux_eq_true_of_run b 8 i r (rem + 1) (by omega) (by omega) (by omega) hp
    · simp only [repAux]
      split
      · split
        · rfl
        · exact ih (i + 1) _ p (by omega) (by omega) hp
      · exact ih (i + 1) 0 p (by omega) (by omega) hp

lemma repeated_eq_false_of_short (b : List Nat) (h : b.length ≤ 7) :
    Repeated b = false :=
  repAux_eq_false b b.length 1 0 (by omega)

/-- Claim C1 (counterexample): contrary to the claim, a 9-byte buffer whose
first 8 bytes form a run of 8 identical bytes is not flagged by `Repeated`,
the 7-byte all-zero buffer yields false, and the 8-byte all-zero buffer
yields true. -/
theorem repeated_claim_boundary_false :
    Repeated [0, 0, 0, 0, 0, 0, 0, 0, 1] = false ∧
    Repeated (List.replicate 7 0) = false ∧
    Repeated (List.replicate 8 0) = true := by
  exact ⟨by decide, by decide, by decide⟩

/-- Claim C1 (amended): `Repeated` returns true for every buffer containing a
run of at least 9 identical consecutive bytes lying within the buffer (the
detector counts equal adjacent pairs and needs 8 of them); the 7-byte
all-zero buffer yields false (only 7 equal circular pairs) and the 8-byte
all-zero buffer yields true (its 8 circular pairs, including the wrap pair,
all match). -/
theorem repeated_run_detected (b : List Nat) (i : Nat)
    (h9 : i + 9 ≤ b.length)
    (hrun : ∀ k, k < 8 → b.getD (i + k) 0 = b.getD (i + k + 1) 0) :
    Repeated b = true ∧
    Repeated (List.replicate 7 0) = false ∧
    Repeated (List.replicate 8 0) = true := by
  refine ⟨?_, by decide, by decide⟩
  unfold Repeated
  refine repAux_eq_true_of_future_run b b.length 1 0 (i + 1) (by omega) (by omega) ?_
  intro t ht
  unfold pairEq
  have h1 : i + 1 + t - 1 = i + t := by omega
  have h2 : (i + 1 + t) % b.length = i + t + 1 := by
    have : i + 1 + t = i + t + 1 := by omega
    rw [this]
    exact Nat.mod_eq_of_lt (by omega)
  rw [h1, h2]
  exact hrun t ht

/-- Claim C1 (witness): a concrete 11-byte buffer with a run of 9 nines. -/
theorem repeated_run_detected_witness :
    Repeated [5, 9, 9, 9, 9, 9, 9, 9, 9, 9, 3] = true ∧
    Repeated (List.replicate 7 0) = false ∧
    Repeated (List.replicate 8 0) = true :=
  repeated_run_detected [5, 9, 9, 9, 9, 9, 9, 9, 9, 9, 3] 1 (by decide) (by decide)

/-! ## Lemmas about Counting -/

lemma incrementing_eq_false_of_short (b : List Nat) (w : Nat) (fp : List Nat → Nat)
    (h : b.length < w + 8) : incrementing b w fp = false := by
  unfold incrementing
  rw [if_pos h]

lemma incrementing_eq_true (b : List Nat) (w : Nat) (fp : List Nat → Nat)
    (hlen : w + 8 ≤ b.length)
    (hsucc : ∀ i, i < b.length / w →
      fp (List.take w (List.drop (w * i) b)) = (fp (List.take w b) + i) % 2 ^ 64) :
    incrementing b w fp = true := by
  unfold incrementing
  rw [if_neg (by omega)]
  simp only [List.all_eq_true, List.mem_range]
  intro i hi
  by_cases h0 : i = 0
  · subst h0; simp
  · have hval := hsucc i hi
    simp only [Bool.or_eq_true, beq_iff_eq]
    exact Or.inr hval.symm

lemma incrementing_eq_false_of_mismatch (b : List Nat) (w : Nat) (fp : List Nat → Nat)
    (i : Nat) (h0 : 0 < i) (hi : i < b.length / w)
    (hne : fp (List.take w (List.drop (w * i) b)) ≠ (fp (List.take w b) + i) % 2 ^ 64) :
    incrementing b w fp = false := by
  unfold incrementing
  split
  · rfl
  · simp only [List.all_eq_false, List.mem_range]
    refine ⟨i, hi, ?_⟩
    intro hcontra
    simp only [Bool.or_eq_true, beq_iff_eq] at hcontra
    rcases hcontra with h | h
    · omega
    · exact hne h.symm

lemma counting_eq_true_iff (b : List Nat) :
    Counting b = true ↔
      (incrementing b 1 byteDecode1 = true ∨ incrementing b 2 uint16LE = true ∨
       incrementing b 2 uint16BE = true ∨ incrementing b 4 uint32LE = true ∨
       incrementing b 4 uint32BE = true ∨ incrementing b 8 uint64LE = true ∨
       incrementing b 8 uint64BE = true) := by
  unfold Counting
  split_ifs <;> simp_all

/-- Claim C6: for each of the seven width/endianness combinations of
`Counting`, a buffer of at least `width + 8` bytes whose complete groups
decode (in wrapping uint64 arithmetic) to `first, first+1, first+2, ...` is
detected; for a given combination, a shorter buffer, or any group decoding to
something other than `first + i`, makes that combination's `incrementing`
test return false. -/
theorem counting_combos_correct (b : List Nat) (c : Nat × (List Nat → Nat))
    (hc : c ∈ countingCombos) :
    ((c.1 + 8 ≤ b.length →
      (∀ i, i < b.length / c.1 →
        c.2 (List.take c.1 (List.drop (c.1 * i) b)) = (c.2 (List.take c.1 b) + i) % 2 ^ 64) →
      Counting b = true) ∧
     (b.length < c.1 + 8 → incrementing b c.1 c.2 = false) ∧
     (∀ i, 0 < i → i < b.length / c.1 →
        c.2 (List.take c.1 (List.drop (c.1 * i) b)) ≠ (c.2 (List.take c.1 b) + i) % 2 ^ 64 →
        incrementing b c.1 c.2 = false)) := by
  have main : ∀ w fp, (w, fp) ∈ countingCombos →
      (w + 8 ≤ b.length →
        (∀ i, i < b.length / w →
          fp (List.take w (List.drop (w * i) b)) = (fp (List.take w b) + i) % 2 ^ 64) →
        Counting b = true) := by
    intro w fp hmem hlen hsucc
    rw [counting_eq_true_iff]
    have hinc := incrementing_eq_true b w fp hlen hsucc
    simp only [countingCombos, List.mem_cons, List.not_mem_nil, or_false] at hmem
    rcases hmem with h | h | h | h | h | h | h <;>
      (injection h with hw hfp; subst hw; subst hfp; tauto)
  obtain ⟨w, fp⟩ := c
  exact ⟨main w fp hc, fun h => incrementing_eq_false_of_short b w fp h,
    fun i h0 hi hne => incrementing_eq_false_of_mismatch b w fp i h0 hi hne⟩

/-- Claim C6 (witness): width 1, bytes counting up from 5. -/
theorem counting_combos_correct_witness :
    Counting [5, 6, 7, 8, 9, 10, 11, 12, 13] = true :=
  (counting_combos_correct [5, 6, 7, 8, 9, 10, 11, 12, 13] (1, byteDecode1)
      (by simp [countingCombos])).1 (by decide) (by decide)

/-! ## Lemmas about BitStuck, and claim C3 -/

lemma testBit_foldl_lor (l : List Nat) (j : Nat) :
    ∀ a, (l.foldl (fun acc v => acc ||| v) a).testBit j =
      (a.testBit j || l.any (fun x => x.testBit j)) := by
  induction l with
  | nil => intro a; simp
  | cons x xs ih =>
    intro a
    simp [List.foldl_cons, ih (a ||| x), Nat.testBit_lor, Bool.or_assoc]

lemma testBit_foldl_land (l : List Nat) (j : Nat) :
    ∀ a, (l.foldl (fun acc v => acc &&& v) a).testBit j =
      (a.testBit j && l.all (fun x => x.testBit j)) := by
  induction l with
  | nil => intro a; simp
  | cons x xs ih =>
    intro a
    simp [List.foldl_cons, ih (a &&& x), Nat.testBit_land, Bool.and_assoc]

lemma foldl_lor_lt (l : List Nat) (n : Nat) :
    ∀ a, a < 2 ^ n → (∀ x ∈ l, x < 2 ^ n) →
      l.foldl (fun acc v => acc ||| v) a < 2 ^ n := by
  induction l with
  | nil => intro a ha _; simpa using ha
  | cons x xs ih =>
    intro a ha hl
    exact ih (a ||| x) (Nat.or_lt_two_pow ha (hl x (List.mem_cons_self x xs)))
      fun y hy => hl y (List.mem_cons_of_mem x hy)

lemma foldl_land_le (l : List Nat) : ∀ a, l.foldl (fun acc v => acc &&& v) a ≤ a := by
  induction l with
  | nil => intro a; simp
  | cons x xs ih => intro a; exact le_trans (ih (a &&& x)) Nat.and_le_left

lemma testBit_255 (j : Nat) (hj : j < 8) : Nat.testBit 255 j = true := by
  have h : (255 : Nat) = 2 ^ 8 - 1 := by norm_num
  rw [h, Nat.testBit_two_pow_sub_one]
  simpa using hj

lemma foldl_lor_ne_255 (b : List Nat) (hbytes : ∀ x ∈ b, x < 256) :
    b.foldl (fun acc v => acc ||| v) 0 ≠ 255 ↔
      ∃ pos, pos < 8 ∧ ∀ x ∈ b, x.testBit pos = false := by
  have hA : b.foldl (fun acc v => acc ||| v) 0 < 2 ^ 8 :=
    foldl_lor_lt b 8 0 (by norm_num) (by intro x hx; simpa using hbytes x hx)
  constructor
  · intro hne
    have hneq : ¬ ∀ j, (b.foldl (fun acc v => acc ||| v) 0).testBit j =
        (255 : Nat).testBit j := fun h => hne (Nat.eq_of_testBit_eq h)
    push_neg at hneq
    obtain ⟨j, hj⟩ := hneq
    have hj8 : j < 8 := by
      by_contra hge
      have hle : (2 : Nat) ^ 8 ≤ 2 ^ j := Nat.pow_le_pow_right (by norm_num) (by omega)
      have h1 : (b.foldl (fun acc v => acc ||| v) 0).testBit j = false :=
        Nat.testBit_lt_two_pow (lt_of_lt_of_le hA hle)
      have h2 : (255 : Nat).testBit j = false :=
        Nat.testBit_lt_two_pow (lt_of_lt_of_le (by norm_num : (255 : Nat) < 2 ^ 8) hle)
      rw [h1, h2] at hj
      exact hj rfl
    refine ⟨j, hj8, ?_⟩
    have h255 := testBit_255 j hj8
    have hfalse : (b.foldl (fun acc v => acc ||| v) 0).testBit j = false := by
      cases h : (b.foldl (fun acc v => acc ||| v) 0).testBit j
      · rfl
      · rw [h, h255] at hj; exact absurd rfl hj
    rw [testBit_foldl_lor b j 0] at hfalse
    simp only [Nat.zero_testBit, Bool.false_or, List.any_eq_false] at hfalse
    intro x hx
    simpa using hfalse x hx
  · rintro ⟨pos, hpos, hall⟩ hcontra
    have : (b.foldl (fun acc v => acc ||| v) 0).testBit pos = false := by
      rw [testBit_foldl_lor b pos 0]
      simp only [Nat.zero_testBit, Bool.false_or, List.any_eq_false]
      intro x hx
      simp [hall x hx]
    rw [hcontra, testBit_255 pos hpos] at this
    exact absurd this (by simp)

lemma foldl_land_ne_0 (b : List Nat) :
    b.foldl (fun acc v => acc &&& v) 255 ≠ 0 ↔
      ∃ pos, pos < 8 ∧ ∀ x ∈ b, x.testBit pos = true := by
  have hB : b.foldl (fun acc v => acc &&& v) 255 ≤ 255 := foldl_land_le b 255
  constructor
  · intro hne
    have hneq : ¬ ∀ j, (b.foldl (fun acc v => acc &&& v) 255).testBit j =
        (0 : Nat).testBit j := fun h => hne (Nat.eq_of_testBit_eq h)
    push_neg at hneq
    obtain ⟨j, hj⟩ := hneq
    have htrue : (b.foldl (fun acc v => acc &&& v) 255).testBit j = true := by
      cases h : (b.foldl (fun acc v => acc &&& v) 255).testBit j
      · rw [h, Nat.zero_testBit] at hj; exact absurd rfl hj
      · rfl
    have hj8 : j < 8 := by
      by_contra hge
      have hle : (2 : Nat) ^ 8 ≤ 2 ^ j := Nat.pow_le_pow_right (by norm_num) (by omega)
      have : (b.foldl (fun acc v => acc &&& v) 255).testBit j = false :=
        Nat.testBit_lt_two_pow
          (lt_of_le_of_lt hB (lt_of_lt_of_le (by norm_num : (255 : Nat) < 2 ^ 8) hle))
      rw [this] at htrue
      exact absurd htrue (by simp)
    refine ⟨j, hj8, ?_⟩
    rw [testBit_foldl_land b j 255, testBit_255 j hj8, Bool.true_and,
      List.all_eq_true] at htrue
    intro x hx
    exact htrue x hx
  · rintro ⟨pos, hpos, hall⟩ hcontra
    have : (b.foldl (fun acc v => acc &&& v) 255).testBit pos = true := by
      rw [testBit_foldl_land b pos 255, testBit_255 pos hpos, Bool.true_and,
        List.all_eq_true]
      intro x hx
      exact hall x hx
    rw [hcontra, Nat.zero_testBit] at this
    exact absurd this (by simp)

/-- Follows the spec's wording for the bitplane variant of BitStuck (§4.1 of
the spec): extract, for each bit position, the bitplane of the buffer into a
packed bit array (bit `i mod 8` of packed byte `i / 8` set iff bit `pos` of
input byte `i` is set) and run `Repeated` on the packed array.  This is the
claim's description, kept separate so it can be compared with the `BitStuck`
the source actually implements. -/
def bitplanePacked (b : List Nat) (pos : Nat) : List Nat :=
  (List.range (b.length / 8)).map fun j =>
    (List.range 8).foldl
      (fun acc k => acc + (if (b.getD (8 * j + k) 0).testBit pos then 2 ^ k else 0)) 0

/-- Follows the spec's wording for the bitplane variant of BitStuck: a buffer
of at least 64 bytes is flagged when some bitplane's packed array contains a
qualifying `Repeated` run. -/
def bitplaneStuck (b : List Nat) : Bool :=
  decide (64 ≤ b.length) && (List.range 8).any fun pos => Repeated (bitplanePacked b pos)

/-- A 64-byte buffer alternating 0x00 / 0xFF: every bitplane alternates, so
each packed bitplane is 8 repeated bytes (0xAA), yet every bit is sometimes
set and sometimes clear. -/
def altBuf : List Nat := (List.range 64).map fun i => if i % 2 = 0 then 0 else 255

/-- Claim C3 (counterexample): on the 64-byte alternating buffer some
bitplane has a qualifying constant run in the packed-bitplane sense the claim
describes, yet the implemented `BitStuck` returns false — `BitStuck` is the
global AND/OR reduction, not the bitplane detector. -/
theorem bitStuck_not_bitplane :
    64 ≤ altBuf.length ∧ bitplaneStuck altBuf = true ∧ BitStuck altBuf = false := by
  refine ⟨by decide, by decide, by decide⟩

/-- Claim C3 (amended): for buffers of at least 64 bytes, `BitStuck` returns
true exactly when some bit position is stuck across the whole buffer — never
set or always set (a global AND/OR reduction returning only a boolean, not a
bit index); every buffer shorter than 64 bytes is never flagged. -/
theorem bitStuck_stuck_bit (b : List Nat) :
    (b.length < 64 → BitStuck b = false) ∧
    (64 ≤ b.length → (∀ x ∈ b, x < 256) →
      (BitStuck b = true ↔
        ∃ pos, pos < 8 ∧
          ((∀ x ∈ b, x.testBit pos = false) ∨ (∀ x ∈ b, x.testBit pos = true)))) := by
  constructor
  · intro h
    unfold BitStuck
    rw [if_pos h]
  · intro hlen hbytes
    unfold BitStuck
    rw [if_neg (by omega)]
    constructor
    · intro htrue
      by_cases hc : (b.foldl (fun acc v => acc ||| v) 0 != 255 ||
          b.foldl (fun acc v => acc &&& v) 255 != 0) = true
      · simp only [Bool.or_eq_true, bne_iff_ne] at hc
        rcases hc with h | h
        · obtain ⟨pos, hpos, hall⟩ := (foldl_lor_ne_255 b hbytes).mp h
          exact ⟨pos, hpos, Or.inl hall⟩
        · obtain ⟨pos, hpos, hall⟩ := (foldl_land_ne_0 b).mp h
          exact ⟨pos, hpos, Or.inr hall⟩
      · rw [if_neg hc] at htrue
        exact absurd htrue (by simp)
    · rintro ⟨pos, hpos, hall | hall⟩
      · have h : b.foldl (fun acc v => acc ||| v) 0 ≠ 255 :=
          (foldl_lor_ne_255 b hbytes).mpr ⟨pos, hpos, hall⟩
        rw [if_pos (by simp only [Bool.or_eq_true, bne_iff_ne]; exact Or.inl h)]
      · have h : b.foldl (fun acc v => acc &&& v) 255 ≠ 0 :=
          (foldl_land_ne_0 b).mpr ⟨pos, hpos, hall⟩
        rw [if_pos (by simp only [Bool.or_eq_true, bne_iff_ne]; exact Or.inr h)]

/-- Claim C3 (witness): a 64-byte buffer of zeros has every bit never set. -/
theorem bitStuck_stuck_bit_witness :
    BitStuck (List.replicate 64 0) = true ↔
      ∃ pos, pos < 8 ∧
        ((∀ x ∈ List.replicate 64 0, Nat.testBit x pos = false) ∨
         (∀ x ∈ List.replicate 64 0, Nat.testBit x pos = true)) :=
  (bitStuck_stuck_bit (List.replicate 64 0)).2 (by decide) (by decide)

/-! ## Lemmas about i64 and the bucket key, and claim C10 -/

lemma foldl_lor_map_lt (l : List Nat) (f : Nat → Nat) (n : Nat) :
    ∀ a, a < 2 ^ n → (∀ i ∈ l, f i < 2 ^ n) →
      l.foldl (fun acc i => acc ||| f i) a < 2 ^ n := by
  induction l with
  | nil => intro a ha _; simpa using ha
  | cons x xs ih =>
    intro a ha hl
    exact ih (a ||| f x) (Nat.or_lt_two_pow ha (hl x (List.mem_cons_self x xs)))
      fun y hy => hl y (List.mem_cons_of_mem x hy)

lemma getD_lt_256 (l : List Nat) (hl : ∀ x ∈ l, x < 256) (i : Nat) : l.getD i 0 < 256 := by
  rcases h : l[i]? with _ | x
  · simp [List.getD_eq_getElem?_getD, h]
  · have hx : x ∈ l := List.getElem?_mem h
    simpa [List.getD_eq_getElem?_getD, h] using hl x hx

lemma toInt64_small (v : Nat) (h : v < 2 ^ 63) : toInt64 v = (v : Int) := by
  unfold toInt64
  rw [Nat.mod_eq_of_lt (lt_trans h (by norm_num))]
  rw [if_pos h]

lemma i64_take_range (c : List Nat) (hc : ∀ x ∈ c, x < 256) :
    0 ≤ i64 (List.take prefixBytes c) ∧ i64 (List.take prefixBytes c) < 2 ^ 32 := by
  have hlen : (List.take prefixBytes c).length ≤ 4 := by
    simp [prefixBytes]
  have helem : ∀ x ∈ List.take prefixBytes c, x < 256 :=
    fun x hx => hc x (List.mem_of_mem_take hx)
  have hfold : (List.range (min (List.take prefixBytes c).length 8)).foldl
      (fun acc i => acc ||| ((List.take prefixBytes c).getD i 0 <<< (8 * i))) 0 < 2 ^ 32 := by
    apply foldl_lor_map_lt _ _ 32 0 (by norm_num)
    intro i hi
    have hi4 : i < 4 := by
      have := List.mem_range.mp hi
      omega
    have hbyte : (List.take prefixBytes c).getD i 0 < 2 ^ 8 := by
      simpa using getD_lt_256 _ helem i
    calc (List.take prefixBytes c).getD i 0 <<< (8 * i) < 2 ^ (8 + 8 * i) :=
          Nat.shiftLeft_lt hbyte
      _ ≤ 2 ^ 32 := Nat.pow_le_pow_right (by norm_num) (by omega)
  unfold i64
  rw [toInt64_small _ (lt_trans hfold (by norm_num))]
  constructor
  · exact Int.ofNat_nonneg _
  · exact_mod_cast hfold

/-- Claim C10: the bucket key used by both the lookup in `unique` and the
transactional `write` is `1 + i64(first 4 ciphertext bytes)`, which for byte
inputs always lies in `[1, 2^32]` (never zero); the keys `unique` fetches are
exactly that function of the chunks, and a `write` touches no bucket other
than the one at its chunk's key. -/
theorem bucket_key_range_agreement (env : Env) (st : Store) (c : List Nat)
    (t : Int) (uID tag : String) (hc : ∀ x ∈ c, x < 256) :
    (1 ≤ 1 + i64 (List.take prefixBytes c) ∧ 1 + i64 (List.take prefixBytes c) ≤ 2 ^ 32) ∧
    (∀ b2 : List Nat, ukeys env b2 =
      (uchunks env b2).map fun ch => 1 + i64 (List.take prefixBytes ch)) ∧
    (∀ k, k ≠ 1 + i64 (List.take prefixBytes c) → (write env st c t uID tag).2 k = st k) := by
  obtain ⟨h0, h32⟩ := i64_take_range c hc
  refine ⟨⟨by omega, by omega⟩, fun b2 => rfl, ?_⟩
  intro k hk
  unfold write
  cases hf : env.fetchErr (1 + i64 (List.take prefixBytes c)) with
  | some e => simp [hf]
  | none =>
    cases hp : env.putErr (1 + i64 (List.take prefixBytes c)) with
    | some e => simp [hf, hp]
    | none => simp [hf, hp, hk]

/-- Identity block transform, used to instantiate the environment in
concrete runs. -/
def encId : List Nat → List Nat := fun b => b

/-- A failure-free environment with the identity transform. -/
def env0 : Env := { enc := encId }

/-- The empty store. -/
def st0 : Store := fun _ => none

/-- Claim C10 (witness): the key of an all-0xFF chunk is in range. -/
theorem bucket_key_range_agreement_witness :
    1 ≤ 1 + i64 (List.take prefixBytes (List.replicate 16 255)) ∧
    1 + i64 (List.take prefixBytes (List.replicate 16 255)) ≤ 2 ^ 32 :=
  (bucket_key_range_agreement env0 st0 (List.replicate 16 255) 0 "" ""
    (by decide)).1

/-! ## Bucket update lemmas, claims C5 and C8 -/

/-- Entries of a bucket are pairwise distinct by trailing bytes. -/
def TrailDistinct (l : List RngUniqueBytesEntry) : Prop :=
  l.Pairwise fun a c => a.trailing ≠ c.trailing

/-- Claim C5: starting from a bucket of at most 100 entries with pairwise
distinct trailing values, a completed write leaves at most 100 entries,
again pairwise distinct; and when the append overflows the cap, the result
is exactly the back half of the appended list (the oldest front half is
evicted). -/
theorem bucketUpdate_invariant (hits : List RngUniqueBytesEntry) (b : List Nat)
    (t : Int) (uID tag : String)
    (hlen : hits.length ≤ maxEntriesPerKey) (hdist : TrailDistinct hits) :
    (bucketUpdate hits b t uID tag).length ≤ maxEntriesPerKey ∧
    TrailDistinct (bucketUpdate hits b t uID tag) ∧
    (maxEntriesPerKey <
        ((hits.filter fun h => h.trailing != List.drop prefixBytes b) ++
          [(⟨List.drop prefixBytes b, t, uID, tag⟩ : RngUniqueBytesEntry)]).length →
      bucketUpdate hits b t uID tag =
        ((hits.filter fun h => h.trailing != List.drop prefixBytes b) ++
          [(⟨List.drop prefixBytes b, t, uID, tag⟩ : RngUniqueBytesEntry)]).drop
          (((hits.filter fun h => h.trailing != List.drop prefixBytes b) ++
            [(⟨List.drop prefixBytes b, t, uID, tag⟩ : RngUniqueBytesEntry)]).length / 2)) := by
  unfold bucketUpdate
  set kept := hits.filter fun h => h.trailing != List.drop prefixBytes b with hkept
  set e : RngUniqueBytesEntry := ⟨List.drop prefixBytes b, t, uID, tag⟩ with he
  have hkeptlen : kept.length ≤ hits.length := List.length_filter_le _ _
  have hkeptdist : TrailDistinct kept :=
    List.Pairwise.sublist (List.filter_sublist hits) hdist
  have hnewdist : TrailDistinct (kept ++ [e]) := by
    rw [TrailDistinct, List.pairwise_append]
    refine ⟨hkeptdist, List.pairwise_singleton _ _, ?_⟩
    intro a ha e' he'
    simp only [List.mem_singleton] at he'
    subst he'
    have hmem := (List.mem_filter.mp ha).2
    rw [he]
    simpa [bne_iff_ne] using hmem
  have hm : maxEntriesPerKey = 100 := rfl
  have hlennew : (kept ++ [e]).length = kept.length + 1 := by simp
  by_cases hov : (kept ++ [e]).length > maxEntriesPerKey
  · rw [if_pos hov]
    refine ⟨?_, List.Pairwise.sublist (List.drop_sublist _ _) hnewdist, fun _ => rfl⟩
    rw [List.length_drop]
    omega
  · rw [if_neg hov]
    exact ⟨by omega, hnewdist, fun hcontra => absurd hcontra hov⟩

/-- Claim C5 (witness): appending a fresh entry to a singleton bucket. -/
theorem bucketUpdate_invariant_witness :
    (bucketUpdate [⟨[9], 1, "x", "y"⟩] (List.replicate 16 0) 3 "a" "b").length ≤
      maxEntriesPerKey :=
  (bucketUpdate_invariant [⟨[9], 1, "x", "y"⟩] (List.replicate 16 0) 3 "a" "b"
    (by decide) (List.pairwise_singleton _ _)).1

lemma filter_length_of_mem_distinct (l : List RngUniqueBytesEntry) (v : List Nat)
    (hdist : TrailDistinct l) (hmem : ∃ h ∈ l, h.trailing = v) :
    (l.filter fun h => h.trailing != v).length + 1 = l.length := by
  induction l with
  | nil =>
    obtain ⟨h, hh, _⟩ := hmem
    exact absurd hh (List.not_mem_nil h)
  | cons x xs ih =>
    rw [TrailDistinct, List.pairwise_cons] at hdist
    obtain ⟨hx, hxs⟩ := hdist
    by_cases hxv : x.trailing = v
    · have hrest : xs.filter (fun h => h.trailing != v) = xs := by
        rw [List.filter_eq_self]
        intro a ha
        have hne : x.trailing ≠ a.trailing := hx a ha
        have : a.trailing ≠ v := fun hav => hne (by rw [hxv, hav])
        simpa [bne_iff_ne] using this
      rw [List.filter_cons]
      have hxfalse : (x.trailing != v) = false := by simpa [bne_iff_ne] using hxv
      rw [hxfalse]
      simp [hrest]
    · obtain ⟨h, hh, hv⟩ := hmem
      rcases List.mem_cons.mp hh with rfl | hh'
      · exact absurd hv hxv
      · have hrec := ih hxs ⟨h, hh', hv⟩
        rw [List.filter_cons]
        have hxtrue : (x.trailing != v) = true := by simpa [bne_iff_ne] using hxv
        rw [hxtrue]
        simp only [if_true, List.length_cons]
        omega

/-- Claim C8: refresh idempotence of the bucket write — when a bucket of at
most 100 entries with distinct trailing values already contains an entry with
the written fingerprint's trailing bytes, the write leaves the entry count
unchanged: the old entry is removed and a single entry with the same trailing
value, the fresh timestamp, and (as on the match path of `unique`, which
calls `write` with empty userID and tag) cleared userID and tag is appended,
with no eviction. -/
theorem write_refresh_idempotent (hits : List RngUniqueBytesEntry) (c : List Nat)
    (t : Int) (hlen : hits.length ≤ maxEntriesPerKey) (hdist : TrailDistinct hits)
    (hmem : ∃ h ∈ hits, h.trailing = List.drop prefixBytes c) :
    (bucketUpdate hits c t "" "").length = hits.length ∧
    bucketUpdate hits c t "" "" =
      (hits.filter fun h => h.trailing != List.drop prefixBytes c) ++
        [⟨List.drop prefixBytes c, t, "", ""⟩] := by
  have hflen := filter_length_of_mem_distinct hits (List.drop prefixBytes c) hdist hmem
  have hm : maxEntriesPerKey = 100 := rfl
  unfold bucketUpdate
  have happlen : ((hits.filter fun h => h.trailing != List.drop prefixBytes c) ++
      [(⟨List.drop prefixBytes c, t, "", ""⟩ : RngUniqueBytesEntry)]).length =
      hits.length := by
    simp only [List.length_append, List.length_singleton]
    omega
  have hnov : ¬ ((hits.filter fun h => h.trailing != List.drop prefixBytes c) ++
      [(⟨List.drop prefixBytes c, t, "", ""⟩ : RngUniqueBytesEntry)]).length >
      maxEntriesPerKey := by omega
  rw [if_neg hnov]
  exact ⟨happlen, rfl⟩

/-- Claim C8 (witness): refreshing the single entry of a singleton bucket. -/
theorem write_refresh_idempotent_witness :
    (bucketUpdate [⟨List.drop prefixBytes (List.replicate 16 0), 5, "u", "g"⟩]
      (List.replicate 16 0) 9 "" "").length =
      ([⟨List.drop prefixBytes (List.replicate 16 0), 5, "u", "g"⟩] :
        List RngUniqueBytesEntry).length :=
  (write_refresh_idempotent [⟨List.drop prefixBytes (List.replicate 16 0), 5, "u", "g"⟩]
    (List.replicate 16 0) 9 (by decide) (List.pairwise_singleton _ _)
    ⟨⟨List.drop prefixBytes (List.replicate 16 0), 5, "u", "g"⟩,
      List.mem_singleton_self _, rfl⟩).1

/-! ## Error normalization lemmas and claim C2 -/

lemma dealWithMultiError_none_of_noEnt (es : List (Option Err))
    (h : ∀ x ∈ es, x = none ∨ x = some Err.noEnt) :
    dealWithMultiError (some (DSErr.multi es)) = none := by
  unfold dealWithMultiError
  rw [List.findSome?_eq_none_iff]
  intro x hx
  rcases h x hx with rfl | rfl <;> rfl

lemma dealWithMultiError_other (es : List (Option Err))
    (hshape : ∀ x ∈ es, x = none ∨ x = some Err.noEnt ∨ ∃ e, x = some (Err.other e))
    (hex : ∃ x ∈ es, ∃ e, x = some (Err.other e)) :
    ∃ e, dealWithMultiError (some (DSErr.multi es)) = some (Err.other e) := by
  induction es with
  | nil =>
    obtain ⟨x, hx, _⟩ := hex
    exact absurd hx (List.not_mem_nil x)
  | cons y ys ih =>
    rcases hshape y (List.mem_cons_self y ys) with rfl | rfl | ⟨e, rfl⟩
    · have hex' : ∃ x ∈ ys, ∃ e, x = some (Err.other e) := by
        obtain ⟨x, hx, e, rfl⟩ := hex
        rcases List.mem_cons.mp hx with heq | hmem
        · exact absurd heq (by simp)
        · exact ⟨_, hmem, e, rfl⟩
      obtain ⟨e, he⟩ := ih (fun x hx => hshape x (List.mem_cons_of_mem _ hx)) hex'
      refine ⟨e, ?_⟩
      unfold dealWithMultiError at he ⊢
      simpa [List.findSome?_cons] using he
    · have hex' : ∃ x ∈ ys, ∃ e, x = some (Err.other e) := by
        obtain ⟨x, hx, e, rfl⟩ := hex
        rcases List.mem_cons.mp hx with heq | hmem
        · exact absurd heq (by simp)
        · exact ⟨_, hmem, e, rfl⟩
      obtain ⟨e, he⟩ := ih (fun x hx => hshape x (List.mem_cons_of_mem _ hx)) hex'
      refine ⟨e, ?_⟩
      unfold dealWithMultiError at he ⊢
      simpa [List.findSome?_cons] using he
    · refine ⟨e, ?_⟩
      unfold dealWithMultiError
      simp [List.findSome?_cons]

lemma getMultiErrs_shape (env : Env) (st : Store) (keys : List Int) :
    ∀ x ∈ getMultiErrs env st keys,
      x = none ∨ x = some Err.noEnt ∨ ∃ e, x = some (Err.other e) := by
  intro x hx
  obtain ⟨k, _, rfl⟩ := List.mem_map.mp hx
  cases hf : env.fetchErr k with
  | some e => exact Or.inr (Or.inr ⟨e, by simp [hf]⟩)
  | none =>
    cases hs : st k with
    | none => exact Or.inr (Or.inl (by simp [hf, hs]))
    | some v => exact Or.inl (by simp [hf, hs])

lemma getMultiVals_of_noFetchErr (env : Env) (st : Store) (keys : List Int)
    (h : ∀ k ∈ keys, env.fetchErr k = none) :
    getMultiVals env st keys = keys.map fun k => (st k).getD ⟨[]⟩ := by
  unfold getMultiVals
  apply List.map_congr_left
  intro k hk
  rw [h k hk]
  cases st k <;> rfl

lemma getMulti_noErr (env : Env) (st : Store) (keys : List Int)
    (h : ∀ k ∈ keys, env.fetchErr k = none) :
    dealWithMultiError (getMulti env st keys).2 = none ∧
    (getMulti env st keys).1 = keys.map fun k => (st k).getD ⟨[]⟩ := by
  constructor
  · show dealWithMultiError
      (if (getMultiErrs env st keys).all (· = none) then none
       else some (DSErr.multi (getMultiErrs env st keys))) = none
    by_cases hall : (getMultiErrs env st keys).all (· = none) = true
    · rw [if_pos hall]; rfl
    · rw [if_neg hall]
      apply dealWithMultiError_none_of_noEnt
      intro x hx
      obtain ⟨k, hk, rfl⟩ := List.mem_map.mp hx
      rw [h k hk]
      cases st k with
      | none => exact Or.inr rfl
      | some v => exact Or.inl rfl
  · exact getMultiVals_of_noFetchErr env st keys h

lemma getMulti_errAbort (env : Env) (st : Store) (keys : List Int)
    (hex : ∃ k ∈ keys, (env.fetchErr k).isSome) :
    ∃ e, dealWithMultiError (getMulti env st keys).2 = some (Err.other e) := by
  have hbad : ∃ x ∈ getMultiErrs env st keys, ∃ e, x = some (Err.other e) := by
    obtain ⟨k, hk, hsome⟩ := hex
    cases hf : env.fetchErr k with
    | none => rw [hf] at hsome; simp at hsome
    | some e =>
      exact ⟨some (Err.other e), List.mem_map.mpr ⟨k, hk, by simp [hf]⟩, e, rfl⟩
  have hall : ¬ (getMultiErrs env st keys).all (· = none) = true := by
    intro hcontra
    rw [List.all_eq_true] at hcontra
    obtain ⟨x, hx, e, rfl⟩ := hbad
    have := hcontra _ hx
    simp at this
  show ∃ e, dealWithMultiError
      (if (getMultiErrs env st keys).all (· = none) then none
       else some (DSErr.multi (getMultiErrs env st keys))) = some (Err.other e)
  rw [if_neg hall]
  exact dealWithMultiError_other _ (getMultiErrs_shape env st keys) hbad

/-- A store holding, at bucket 1, an entry matching the all-zero 16-byte
submission under the identity transform. -/
def stMatch : Store := fun k =>
  if k = 1 then some ⟨[⟨List.replicate 12 0, 5, "u", "g"⟩]⟩ else none

/-- An environment whose datastore put to bucket 1 fails with error code 7. -/
def envPutFail : Env :=
  { enc := encId, putErr := fun k => if k = 1 then some 7 else none }

/-- Claim C2 (counterexample): with a matching fingerprint in the store and a
backend whose put fails, the refresh `write` fails with a storage error, yet
`unique` still returns the match verdict with a nil error — the refresh
write's error does not propagate, a verdict is reported alongside the
failure. -/
theorem unique_refresh_write_error_swallowed :
    (write envPutFail stMatch (List.replicate 16 0) 9 "" "").1 = some (Err.other 7) ∧
    (unique envPutFail stMatch (List.replicate 16 0) "x" "y" 9).1 =
      (some ⟨List.replicate 12 0, 5, "u", "g"⟩, 0, none) := by
  exact ⟨by decide, by decide⟩

/-- Claim C2 (amended): a cipher-initialization failure aborts the whole call
with that error, no verdict and no store change; "entity not found" on any
subset of the batched keys is normalized away and those buckets read as
empty; any other per-key fetch error aborts the whole call with a storage
error, no verdict and no store change; a failing write on the no-match path —
the first-window write, or the last-window write after the first succeeded —
aborts with that error and no verdict.  The one exception to the claim: the
error of the refresh write performed on the match path is discarded — the
match verdict is returned with a nil error regardless of that write's
outcome. -/
theorem unique_error_propagation (env : Env) (st : Store) (b : List Nat)
    (uID tag : String) (t : Int) :
    (∀ e, env.secretErr = none → env.cipherErr = some e →
      unique env st b uID tag t = ((none, 0, some (Err.cipherFail e)), st)) ∧
    ((∀ k ∈ ukeys env b, env.fetchErr k = none) →
      dealWithMultiError (getMulti env st (ukeys env b)).2 = none ∧
      (getMulti env st (ukeys env b)).1 = (ukeys env b).map fun k => (st k).getD ⟨[]⟩) ∧
    (env.secretErr = none → env.cipherErr = none →
      (∃ k ∈ ukeys env b, (env.fetchErr k).isSome) →
      ∃ e, unique env st b uID tag t = ((none, 0, some (Err.other e)), st)) ∧
    (env.secretErr = none → env.cipherErr = none →
      dealWithMultiError (getMulti env st (ukeys env b)).2 = none →
      findMatch (uchunks env b) (getMultiVals env st (ukeys env b)) 0 = none →
      ∀ e, (write env st ((uchunks env b).getD 0 []) t uID tag).1 = some e →
        unique env st b uID tag t =
          ((none, 0, some e), (write env st ((uchunks env b).getD 0 []) t uID tag).2)) ∧
    (env.secretErr = none → env.cipherErr = none →
      dealWithMultiError (getMulti env st (ukeys env b)).2 = none →
      ∀ h i, findMatch (uchunks env b) (getMultiVals env st (ukeys env b)) 0 = some (h, i) →
        unique env st b uID tag t =
          ((some h, i, none), (write env st ((uchunks env b).getD i []) t "" "").2)) ∧
    (env.secretErr = none → env.cipherErr = none →
      dealWithMultiError (getMulti env st (ukeys env b)).2 = none →
      findMatch (uchunks env b) (getMultiVals env st (ukeys env b)) 0 = none →
      1 < b.length - 15 →
      ∀ st1, write env st ((uchunks env b).getD 0 []) t uID tag = (none, st1) →
      ∀ e, (write env st1 ((uchunks env b).getD (b.length - 16) []) t uID tag).1 = some e →
        unique env st b uID tag t =
          ((none, 0, some e),
            (write env st1 ((uchunks env b).getD (b.length - 16) []) t uID tag).2)) := by
  refine ⟨?_, ?_, ?_, ?_, ?_, ?_⟩
  · intro e hs hc
    unfold unique
    rw [hs, hc]
  · intro hferr
    exact getMulti_noErr env st (ukeys env b) hferr
  · intro hs hc hex
    obtain ⟨e, he⟩ := getMulti_errAbort env st (ukeys env b) hex
    refine ⟨e, ?_⟩
    unfold unique
    rw [hs, hc, he]
  · intro hs hc hdw hfm e hw
    unfold unique
    rw [hs, hc, hdw, hfm]
    rcases hww : write env st ((uchunks env b).getD 0 []) t uID tag with ⟨e1, st1⟩
    rw [hww] at hw
    simp only at hw
    subst hw
    rfl
  · intro hs hc hdw h i hfm
    unfold unique
    rw [hs, hc, hdw, hfm]
  · intro hs hc hdw hfm hn st1 hw1 e hw2
    unfold unique
    rw [hs, hc, hdw, hfm, hw1]
    dsimp only
    rw [if_pos hn]
    rcases hw2e : write env st1 ((uchunks env b).getD (b.length - 16) []) t uID tag
      with ⟨e2, st2⟩
    rw [hw2e] at hw2
    simp only at hw2
    subst hw2
    simp only [hw2e]

/-- Claim C2 (witness): a cipher-initialization failure aborts the call. -/
theorem unique_error_propagation_witness :
    unique { enc := encId, cipherErr := some 3 } st0 (List.replicate 16 0) "u" "g" 0 =
      ((none, 0, some (Err.cipherFail 3)), st0) :=
  (unique_error_propagation { enc := encId, cipherErr := some 3 } st0
    (List.replicate 16 0) "u" "g" 0).1 3 rfl rfl

/-! ## Round-trip lemmas and claim C4 -/

lemma write_ok (env : Env) (st : Store) (c : List Nat) (t : Int) (uID tag : String)
    (hf : ∀ k, env.fetchErr k = none) (hp : ∀ k, env.putErr k = none) :
    write env st c t uID tag =
      (none, fun k => if k = 1 + i64 (List.take prefixBytes c) then
          some ⟨bucketUpdate ((st (1 + i64 (List.take prefixBytes c))).getD ⟨[]⟩).hits
            c t uID tag⟩
        else st k) := by
  simp only [write, hf, hp]

lemma findMatch_none (f : List Nat → RngUniqueBytes) :
    ∀ (cs : List (List Nat)) (j : Nat),
      (∀ c ∈ cs, ∀ h ∈ (f c).hits, h.trailing ≠ List.drop prefixBytes c) →
      findMatch cs (cs.map f) j = none := by
  intro cs
  induction cs with
  | nil => intro j _; rfl
  | cons c cs ih =>
    intro j hno
    have hfind : (f c).hits.find? (fun h => h.trailing == List.drop prefixBytes c) = none := by
      rw [List.find?_eq_none]
      intro h hh
      simpa using hno c (List.mem_cons_self c cs) h hh
    simp only [List.map_cons, findMatch, hfind]
    exact ih (j + 1) fun c' hc' => hno c' (List.mem_cons_of_mem c hc')

lemma findMatch_head_some (c : List Nat) (cs : List (List Nat)) (v : RngUniqueBytes)
    (vs : List RngUniqueBytes) (j : Nat)
    (hex : ∃ h ∈ v.hits, h.trailing = List.drop prefixBytes c) :
    ∃ h2, findMatch (c :: cs) (v :: vs) j = some (h2, j) ∧
      h2.trailing = List.drop prefixBytes c := by
  have hsome : (v.hits.find? fun h => h.trailing == List.drop prefixBytes c).isSome := by
    rw [List.find?_isSome]
    obtain ⟨h, hh, ht⟩ := hex
    exact ⟨h, hh, by simp [ht]⟩
  obtain ⟨h2, hh2⟩ := Option.isSome_iff_exists.mp hsome
  have hpred := List.find?_some hh2
  refine ⟨h2, ?_, by simpa using hpred⟩
  simp only [findMatch, hh2]

lemma bucketUpdate_shape (hits : List RngUniqueBytesEntry) (c : List Nat) (t : Int)
    (uID tag : String) :
    ∃ w, bucketUpdate hits c t uID tag =
      w ++ [⟨List.drop prefixBytes c, t, uID, tag⟩] := by
  unfold bucketUpdate
  set kept := hits.filter fun h => h.trailing != List.drop prefixBytes c with hkept
  set e : RngUniqueBytesEntry := ⟨List.drop prefixBytes c, t, uID, tag⟩ with he
  by_cases hov : (kept ++ [e]).length > maxEntriesPerKey
  · rw [if_pos hov]
    have hlen : (kept ++ [e]).length = kept.length + 1 := by simp
    have hm : maxEntriesPerKey = 100 := rfl
    have hk : (kept ++ [e]).length / 2 ≤ kept.length := by omega
    rw [List.drop_append_of_le_length hk]
    exact ⟨kept.drop ((kept ++ [e]).length / 2), rfl⟩
  · rw [if_neg hov]
    exact ⟨kept, rfl⟩

lemma bucketUpdate_mem_last (w : List RngUniqueBytesEntry) (h0 : RngUniqueBytesEntry)
    (c : List Nat) (t : Int) (uID tag : String)
    (hne : h0.trailing ≠ List.drop prefixBytes c) :
    h0 ∈ bucketUpdate (w ++ [h0]) c t uID tag := by
  unfold bucketUpdate
  have hfil : (w ++ [h0]).filter (fun h => h.trailing != List.drop prefixBytes c) =
      (w.filter fun h => h.trailing != List.drop prefixBytes c) ++ [h0] := by
    rw [List.filter_append]
    congr 1
    rw [List.filter_cons]
    have : (h0.trailing != List.drop prefixBytes c) = true := by
      simpa [bne_iff_ne] using hne
    rw [this]
    rfl
  rw [hfil]
  set fw := w.filter fun h => h.trailing != List.drop prefixBytes c with hfw
  set e1 : RngUniqueBytesEntry := ⟨List.drop prefixBytes c, t, uID, tag⟩ with he1
  by_cases hov : ((fw ++ [h0]) ++ [e1]).length > maxEntriesPerKey
  · rw [if_pos hov]
    have hlen : ((fw ++ [h0]) ++ [e1]).length = fw.length + 2 := by simp
    have hm : maxEntriesPerKey = 100 := rfl
    have hk : ((fw ++ [h0]) ++ [e1]).length / 2 ≤ fw.length := by omega
    rw [List.drop_append_of_le_length (le_trans hk (by simp))]
    apply List.mem_append_left
    rw [List.drop_append_of_le_length hk]
    exact List.mem_append_right _ (List.mem_singleton_self _)
  · rw [if_neg hov]
    exact List.mem_append_left _ (List.mem_append_right _ (List.mem_singleton_self _))

lemma unique_no_match (env : Env) (st : Store) (b : List Nat) (uID tag : String) (t : Int)
    (hsec : env.secretErr = none) (hciph : env.cipherErr = none)
    (hdw : dealWithMultiError (getMulti env st (ukeys env b)).2 = none)
    (hfm : findMatch (uchunks env b) (getMultiVals env st (ukeys env b)) 0 = none)
    (hf : ∀ k, env.fetchErr k = none) (hp : ∀ k, env.putErr k = none) :
    unique env st b uID tag t =
      ((none, 0, none),
        if 1 < b.length - 15 then
          (write env (write env st ((uchunks env b).getD 0 []) t uID tag).2
            ((uchunks env b).getD (b.length - 16) []) t uID tag).2
        else (write env st ((uchunks env b).getD 0 []) t uID tag).2) := by
  unfold unique
  rw [hsec, hciph, hdw, hfm]
  rw [write_ok env st ((uchunks env b).getD 0 []) t uID tag hf hp]
  dsimp only
  by_cases hn : 1 < b.length - 15
  · rw [if_pos hn, if_pos hn]
    rw [write_ok env _ ((uchunks env b).getD (b.length - 16) []) t uID tag hf hp]
  · rw [if_neg hn, if_neg hn]

lemma unique_match_result (env : Env) (st : Store) (b : List Nat) (uID tag : String)
    (t : Int) (h2 : RngUniqueBytesEntry) (i : Nat)
    (hsec : env.secretErr = none) (hciph : env.cipherErr = none)
    (hdw : dealWithMultiError (getMulti env st (ukeys env b)).2 = none)
    (hfm : findMatch (uchunks env b) (getMultiVals env st (ukeys env b)) 0 = some (h2, i)) :
    (unique env st b uID tag t).1 = (some h2, i, none) := by
  unfold unique
  rw [hsec, hciph, hdw, hfm]

/-- Claim C4: starting from a store holding none of the submission's
fingerprints and a failure-free backend, `unique` on a 16-byte-or-longer
input reports no match with no error, and the resulting store is the store
with the first window's fingerprint written and — when more than one window
exists — the last window's fingerprint written after it (exactly one write
for an exactly-16-byte input); a second call with the same bytes then
reports a match at window 0 with no error, whose entry's trailing bytes equal
the trailing part of the encrypted first window of the original
submission. -/
theorem unique_round_trip (env : Env) (st : Store) (b : List Nat)
    (uID tag uID2 tag2 : String) (t t2 : Int)
    (hsec : env.secretErr = none) (hciph : env.cipherErr = none)
    (hf : ∀ k, env.fetchErr k = none) (hp : ∀ k, env.putErr k = none)
    (hlen : 16 ≤ b.length)
    (hfresh : ∀ c ∈ uchunks env b,
      ∀ h ∈ ((st (1 + i64 (List.take prefixBytes c))).getD ⟨[]⟩).hits,
        h.trailing ≠ List.drop prefixBytes c) :
    (unique env st b uID tag t).1 = (none, 0, none) ∧
    (unique env st b uID tag t).2 =
      (if 1 < b.length - 15 then
        (write env (write env st ((uchunks env b).getD 0 []) t uID tag).2
          ((uchunks env b).getD (b.length - 16) []) t uID tag).2
       else (write env st ((uchunks env b).getD 0 []) t uID tag).2) ∧
    (∃ h2, (unique env (unique env st b uID tag t).2 b uID2 tag2 t2).1 =
        (some h2, 0, none) ∧
      h2.trailing = List.drop prefixBytes ((uchunks env b).getD 0 [])) := by
  have hchunkeq : ∀ st' : Store, getMultiVals env st' (ukeys env b) =
      (uchunks env b).map fun c => (st' (1 + i64 (List.take prefixBytes c))).getD ⟨[]⟩ := by
    intro st'
    rw [getMultiVals_of_noFetchErr env st' _ (fun k _ => hf k), ukeys, List.map_map]
    rfl
  have hgm1 := (getMulti_noErr env st (ukeys env b) (fun k _ => hf k)).1
  have hfm1 : findMatch (uchunks env b) (getMultiVals env st (ukeys env b)) 0 = none := by
    rw [hchunkeq st]
    exact findMatch_none _ (uchunks env b) 0 hfresh
  have hcall1 := unique_no_match env st b uID tag t hsec hciph hgm1 hfm1 hf hp
  refine ⟨by rw [hcall1], by rw [hcall1], ?_⟩
  rw [hcall1]
  dsimp only
  -- the store after the first call contains the first window's fingerprint
  have hchunklen : (uchunks env b).length = b.length - 15 := by
    simp [uchunks]
  have hpos : uchunks env b ≠ [] := by
    intro hnil
    rw [hnil] at hchunklen
    simp at hchunklen
    omega
  obtain ⟨ch, crest, hcons⟩ := List.exists_cons_of_ne_nil hpos
  have hch : (uchunks env b).getD 0 [] = ch := by rw [hcons]; rfl
  have hw0 := write_ok env st ((uchunks env b).getD 0 []) t uID tag hf hp
  have hshape0 := bucketUpdate_shape
    ((st (1 + i64 (List.take prefixBytes ((uchunks env b).getD 0 [])))).getD ⟨[]⟩).hits
    ((uchunks env b).getD 0 []) t uID tag
  obtain ⟨w0, hw0shape⟩ := hshape0
  have hmem0 : ∀ st2 : Store,
      st2 (1 + i64 (List.take prefixBytes ((uchunks env b).getD 0 []))) =
        some ⟨bucketUpdate
          ((st (1 + i64 (List.take prefixBytes ((uchunks env b).getD 0 [])))).getD ⟨[]⟩).hits
          ((uchunks env b).getD 0 []) t uID tag⟩ →
      ∃ h ∈ ((st2 (1 + i64 (List.take prefixBytes ((uchunks env b).getD 0 [])))).getD
          ⟨[]⟩).hits,
        h.trailing = List.drop prefixBytes ((uchunks env b).getD 0 []) := by
    intro st2 hst2
    rw [hst2]
    refine ⟨⟨List.drop prefixBytes ((uchunks env b).getD 0 []), t, uID, tag⟩, ?_, rfl⟩
    show _ ∈ (bucketUpdate _ _ _ _ _)
    rw [hw0shape]
    exact List.mem_append_right _ (List.mem_singleton_self _)
  -- establish the fingerprint's presence in the final store of call 1
  have hfinal : ∃ h ∈ (((if 1 < b.length - 15 then
        (write env (write env st ((uchunks env b).getD 0 []) t uID tag).2
          ((uchunks env b).getD (b.length - 16) []) t uID tag).2
       else (write env st ((uchunks env b).getD 0 []) t uID tag).2)
        (1 + i64 (List.take prefixBytes ((uchunks env b).getD 0 [])))).getD ⟨[]⟩).hits,
      h.trailing = List.drop prefixBytes ((uchunks env b).getD 0 []) := by
    by_cases hn : 1 < b.length - 15
    · rw [if_pos hn]
      have hw1 := write_ok env (write env st ((uchunks env b).getD 0 []) t uID tag).2
        ((uchunks env b).getD (b.length - 16) []) t uID tag hf hp
      rw [hw1]
      dsimp only
      by_cases hkk : (1 : Int) + i64 (List.take prefixBytes ((uchunks env b).getD 0 [])) =
          1 + i64 (List.take prefixBytes ((uchunks env b).getD (b.length - 16) []))
      · rw [if_pos hkk]
        -- both windows share a bucket
        have hbkt : ((write env st ((uchunks env b).getD 0 []) t uID tag).2
            (1 + i64 (List.take prefixBytes ((uchunks env b).getD (b.length - 16) [])))).getD
            ⟨[]⟩ =
            ⟨bucketUpdate
              ((st (1 + i64 (List.take prefixBytes ((uchunks env b).getD 0 [])))).getD
                ⟨[]⟩).hits ((uchunks env b).getD 0 []) t uID tag⟩ := by
          rw [hw0]
          dsimp only
          rw [if_pos hkk.symm]
          rfl
        rw [hbkt, hw0shape]
        by_cases htr : List.drop prefixBytes ((uchunks env b).getD 0 []) =
            List.drop prefixBytes ((uchunks env b).getD (b.length - 16) [])
        · obtain ⟨w1, hw1shape⟩ := bucketUpdate_shape
            (w0 ++ [⟨List.drop prefixBytes ((uchunks env b).getD 0 []), t, uID, tag⟩])
            ((uchunks env b).getD (b.length - 16) []) t uID tag
          refine ⟨⟨List.drop prefixBytes ((uchunks env b).getD (b.length - 16) []),
            t, uID, tag⟩, ?_, htr.symm⟩
          show _ ∈ (bucketUpdate _ _ _ _ _)
          rw [hw1shape]
          exact List.mem_append_right _ (List.mem_singleton_self _)
        · refine ⟨⟨List.drop prefixBytes ((uchunks env b).getD 0 []), t, uID, tag⟩, ?_, rfl⟩
          show _ ∈ (bucketUpdate _ _ _ _ _)
          exact bucketUpdate_mem_last w0 _ _ t uID tag htr
      · rw [if_neg hkk]
        apply hmem0
        rw [hw0]
        dsimp only
        rw [if_pos rfl]
    · rw [if_neg hn]
      apply hmem0
      rw [hw0]
      dsimp only
      rw [if_pos rfl]
  -- second call
  set ST : Store := (if 1 < b.length - 15 then
        (write env (write env st ((uchunks env b).getD 0 []) t uID tag).2
          ((uchunks env b).getD (b.length - 16) []) t uID tag).2
       else (write env st ((uchunks env b).getD 0 []) t uID tag).2) with hSTdef
  have hgm2 := (getMulti_noErr env ST (ukeys env b) (fun k _ => hf k)).1
  have hfinal' := hfinal
  rw [hch] at hfinal'
  have hfm2 : ∃ h2, findMatch (uchunks env b) (getMultiVals env ST (ukeys env b)) 0 =
      some (h2, 0) ∧
      h2.trailing = List.drop prefixBytes ((uchunks env b).getD 0 []) := by
    rw [hchunkeq ST, hcons, List.map_cons, List.getD_cons_zero]
    exact findMatch_head_some ch crest _ _ 0 hfinal'
  obtain ⟨h2, hfm2eq, htrail⟩ := hfm2
  exact ⟨h2, unique_match_result env ST b uID2 tag2 t2 h2 0 hsec hciph hgm2 hfm2eq, htrail⟩

/-- The 17-byte buffer used for the round-trip witness. -/
def b17w : List Nat := 0 :: List.replicate 16 1

/-- Claim C4 (witness): round trip on a concrete 17-byte input over the empty
store. -/
theorem unique_round_trip_witness :
    (unique env0 st0 b17w "u" "g" 5).1 = (none, 0, none) ∧
    (∃ h2, (unique env0 (unique env0 st0 b17w "u" "g" 5).2 b17w "x" "y" 9).1 =
        (some h2, 0, none) ∧
      h2.trailing = List.drop prefixBytes ((uchunks env0 b17w).getD 0 [])) :=
  ⟨(unique_round_trip env0 st0 b17w "u" "g" "x" "y" 5 9 rfl rfl (fun _ => rfl)
      (fun _ => rfl) (by decide) (by decide)).1,
   (unique_round_trip env0 st0 b17w "u" "g" "x" "y" 5 9 rfl rfl (fun _ => rfl)
      (fun _ => rfl) (by decide) (by decide)).2.2⟩

/-! ## Claims C9 and C7: the composite battery -/

/-- Claim C9: every buffer of at most 7 bytes passes the whole battery:
`Repeated` cannot reach 8 equal pairs, and each other sub-test is below its
minimum length (9 bytes for width-1 `Counting`, 45 for `DecimalHex`, 64 for
`BitStuck`). -/
theorem looksRandom_short_passes (b : List Nat) (h : b.length ≤ 7) :
    LooksRandom b = (true, "") := by
  have hrep : Repeated b = false := repeated_eq_false_of_short b h
  have h1 := incrementing_eq_false_of_short b 1 byteDecode1 (by omega)
  have h2 := incrementing_eq_false_of_short b 2 uint16LE (by omega)
  have h3 := incrementing_eq_false_of_short b 2 uint16BE (by omega)
  have h4 := incrementing_eq_false_of_short b 4 uint32LE (by omega)
  have h5 := incrementing_eq_false_of_short b 4 uint32BE (by omega)
  have h6 := incrementing_eq_false_of_short b 8 uint64LE (by omega)
  have h7 := incrementing_eq_false_of_short b 8 uint64BE (by omega)
  have hc : Counting b = false := by
    unfold Counting
    rw [h1, h2, h3, h4, h5, h6, h7]
    rfl
  have hd : DecimalHex b = false := by
    unfold DecimalHex
    rw [if_pos (by omega)]
  have hb : BitStuck b = false := by
    unfold BitStuck
    rw [if_pos (by omega)]
  unfold LooksRandom
  rw [hrep, hc, hd, hb]
  rfl

/-- Claim C9 (witness): seven identical bytes pass. -/
theorem looksRandom_short_passes_witness :
    LooksRandom [7, 7, 7, 7, 7, 7, 7] = (true, "") :=
  looksRandom_short_passes [7, 7, 7, 7, 7, 7, 7] (by decide)

/-- Claim C7: `LooksRandom` returns `(true, "")` exactly when all four
sub-tests are false, and otherwise returns false with the distinct reason
string of the first failing sub-test in the order Repeated, Counting,
DecimalHex, BitStuck.  (As a Lean function of the buffer alone it is pure by
construction, mirroring the side-effect-free Go function.) -/
theorem looksRandom_characterization (b : List Nat) :
    (LooksRandom b = (true, "") ↔
      (Repeated b = false ∧ Counting b = false ∧ DecimalHex b = false ∧ BitStuck b = false)) ∧
    (Repeated b = true → LooksRandom b = (false, "Repeated bytes")) ∧
    (Repeated b = false → Counting b = true → LooksRandom b = (false, "Counting")) ∧
    (Repeated b = false → Counting b = false → DecimalHex b = true →
      LooksRandom b = (false, "Decimal digits as hex")) ∧
    (Repeated b = false → Counting b = false → DecimalHex b = false → BitStuck b = true →
      LooksRandom b = (false, "Bit stuck")) := by
  unfold LooksRandom
  cases hr : Repeated b <;> cases hc : Counting b <;> cases hd : DecimalHex b <;>
    cases hb : BitStuck b <;> simp

/-- Claim C7 (witness): the characterization applied to a counting buffer. -/
theorem looksRandom_characterization_witness :
    LooksRandom [1, 2, 3, 4, 5, 6, 7, 8, 9] = (false, "Counting") :=
  (looksRandom_characterization [1, 2, 3, 4, 5, 6, 7, 8, 9]).2.2.1 (by decide) (by decide)

end RandomSanity
